import Mathlib

/-!
Verification of the markdown-to-document converter in `merge_to_docx.py`.

Lines are modelled as `List Char` holding the line's characters without the
terminating newline (what Python's `readlines` yields, minus the `'\n'`;
dropping the newline is observationally equivalent for every operation the
script performs on a line).  The abstract document sink records the sequence
of document operations the script applies to the `docx` document.
-/

namespace MergeToDocx

/-- One styled run: `(text, bold, italic)`, as returned by
`parse_inline_markdown`. -/
abbrev Run := List Char × Bool × Bool

/-- Python `str.rstrip()` restricted to the whitespace characters that can
occur here (space, tab, CR, LF). -/
def rstrip (l : List Char) : List Char :=
  (l.reverse.dropWhile Char.isWhitespace).reverse

/-- Python `str.lstrip()`. -/
def lstrip (l : List Char) : List Char :=
  l.dropWhile Char.isWhitespace

/-- Python `str.strip()`. -/
def strip (l : List Char) : List Char :=
  lstrip (rstrip l)

/-- Python `str.startswith`, on character lists. -/
def startsWith : List Char → List Char → Bool
  | [], _ => true
  | _ :: _, [] => false
  | p :: ps, c :: cs => if p = c then startsWith ps cs else false

/-- Python substring test `p in s`. -/
def hasSub (p : List Char) : List Char → Bool
  | [] => p.isEmpty
  | c :: rest => startsWith p (c :: rest) || hasSub p rest

/-- Least index `j` with `l[j] = '*'` and `l[j+1] = '*'`, scanning only
across characters the regex `.` can match (no `'\n'`): the end position of
the lazy `.*?` in the alternative `\*\*.*?\*\*`. -/
def scanToDouble : List Char → Option Nat
  | [] => none
  | c :: rest =>
    if c = '*' ∧ rest.head? = some '*' then some 0
    else if c = '\n' then none
    else (scanToDouble rest).map (· + 1)

/-- Least index `j` with `l[j] = '*'`, scanning only across characters the
regex `.` can match: the end position of the lazy `.*?` in `\*.*?\*`. -/
def scanToSingle : List Char → Option Nat
  | [] => none
  | c :: rest =>
    if c = '*' then some 0
    else if c = '\n' then none
    else (scanToSingle rest).map (· + 1)

/-- A match of the regex `(\*\*.*?\*\*|\*.*?\*)` at the current position,
classified the way `parse_inline_markdown` classifies `match.group(1)`
(`startswith('**') and endswith('**')` gives a bold run, otherwise an
italic run).  Returns the produced run and the text after the match. -/
def tryMatch : List Char → Option (Run × List Char)
  | [] => none
  | c :: rest =>
    if c = '*' then
      match rest with
      | c2 :: tail =>
        if c2 = '*' then
          match scanToDouble tail with
          | some j => some ((tail.take j, true, false), tail.drop (j + 2))
          | none => some (([], true, false), tail)
        else
          match scanToSingle rest with
          | some j => some ((rest.take j, false, true), rest.drop (j + 1))
          | none => none
      | [] => none
    else none

/-- The pending plain text, flushed as an unstyled run when nonempty
(`parts.append((text[current_pos:match.start()], False, False))`). -/
def flushAcc (acc : List Char) : List Run :=
  if acc.isEmpty then [] else [(acc.reverse, false, false)]

/-- The `re.finditer` loop of `parse_inline_markdown`: `acc` holds (reversed)
the plain text accumulated since the end of the previous match.  `fuel`
dominates the length of `cs`, so the zero case is never reached from the
wrapper below. -/
def goFuel : Nat → List Char → List Char → List Run
  | 0, acc, _ => flushAcc acc
  | fuel + 1, acc, cs =>
    match cs with
    | [] => flushAcc acc
    | c :: rest =>
      match tryMatch (c :: rest) with
      | some (run, rem) => flushAcc acc ++ run :: goFuel fuel [] rem
      | none => goFuel fuel (c :: acc) rest

/-- `parse_inline_markdown(text)`: split one line into styled runs; if no
marker matches, the whole line is one plain run
(`return parts if parts else [(text, False, False)]`). -/
def parse_inline_markdown (cs : List Char) : List Run :=
  let ps := goFuel (cs.length + 1) [] cs
  if ps.isEmpty then [(cs, false, false)] else ps

/-- Concatenation of the `text` fields of a run list, in order. -/
def concatText (rs : List Run) : List Char :=
  (rs.map (fun r => r.1)).flatten

/-- `delStars l m`: `m` is obtained from `l` by deleting some (not necessarily
all) `'*'` characters and nothing else. -/
inductive delStars : List Char → List Char → Prop
  | nil : delStars [] []
  | keep (c : Char) {l m : List Char} : delStars l m → delStars (c :: l) (c :: m)
  | star {l m : List Char} : delStars l m → delStars ('*' :: l) m

theorem delStars_refl (l : List Char) : delStars l l := by
  induction l with
  | nil => exact .nil
  | cons c l ih => exact .keep c ih

theorem delStars_append (t : List Char) {l m : List Char} (h : delStars l m) :
    delStars (t ++ l) (t ++ m) := by
  induction t with
  | nil => simpa using h
  | cons c t ih => exact .keep c ih

theorem concatText_flushAcc (acc : List Char) :
    concatText (flushAcc acc) = acc.reverse := by
  by_cases h : acc.isEmpty
  · simp_all [flushAcc, concatText, List.isEmpty_iff]
  · simp [flushAcc, h, concatText]

theorem concatText_append (xs ys : List Run) :
    concatText (xs ++ ys) = concatText xs ++ concatText ys := by
  simp [concatText]

theorem concatText_cons (r : Run) (rs : List Run) :
    concatText (r :: rs) = r.1 ++ concatText rs := by
  simp [concatText]

theorem scanToDouble_eq : ∀ {l : List Char} {j : Nat}, scanToDouble l = some j →
    l = l.take j ++ '*' :: '*' :: l.drop (j + 2) := by
  intro l
  induction l with
  | nil => intro j h; simp [scanToDouble] at h
  | cons c rest ih =>
    intro j h
    rw [scanToDouble] at h
    split at h
    · rename_i hc
      obtain ⟨hc1, hc2⟩ := hc
      cases rest with
      | nil => simp at hc2
      | cons c2 tail =>
        simp at hc2
        cases h
        subst hc1; subst hc2
        simp
    · split at h
      · simp at h
      · simp only [Option.map_eq_some'] at h
        obtain ⟨j', hj', rfl⟩ := h
        have := ih hj'
        calc c :: rest = c :: (rest.take j' ++ '*' :: '*' :: rest.drop (j' + 2)) := by rw [← this]
          _ = (c :: rest).take (j' + 1) ++ '*' :: '*' :: (c :: rest).drop (j' + 1 + 2) := by simp

theorem scanToSingle_eq : ∀ {l : List Char} {j : Nat}, scanToSingle l = some j →
    l = l.take j ++ '*' :: l.drop (j + 1) := by
  intro l
  induction l with
  | nil => intro j h; simp [scanToSingle] at h
  | cons c rest ih =>
    intro j h
    rw [scanToSingle] at h
    split at h
    · rename_i hc
      cases h
      subst hc
      simp
    · split at h
      · simp at h
      · simp only [Option.map_eq_some'] at h
        obtain ⟨j', hj', rfl⟩ := h
        have := ih hj'
        calc c :: rest = c :: (rest.take j' ++ '*' :: rest.drop (j' + 1)) := by rw [← this]
          _ = (c :: rest).take (j' + 1) ++ '*' :: (c :: rest).drop (j' + 1 + 1) := by simp

theorem tryMatch_decomp {cs t rem : List Char} {b i : Bool}
    (h : tryMatch cs = some ((t, b, i), rem)) :
    cs = '*' :: '*' :: (t ++ '*' :: '*' :: rem) ∨
      (cs = '*' :: '*' :: rem ∧ t = []) ∨
      cs = '*' :: (t ++ '*' :: rem) := by
  rw [tryMatch.eq_def] at h
  split at h
  · simp at h
  · rename_i c rest
    split at h
    · rename_i hc
      subst hc
      split at h
      · rename_i c2 tail
        split at h
        · rename_i hc2
          subst hc2
          split at h
          · rename_i j hj
            simp only [Option.some.injEq, Prod.mk.injEq] at h
            obtain ⟨⟨ht, -, -⟩, hrem⟩ := h
            subst ht; subst hrem
            left
            exact congrArg (fun l => '*' :: '*' :: l) (scanToDouble_eq hj)
          · simp only [Option.some.injEq, Prod.mk.injEq] at h
            obtain ⟨⟨ht, -, -⟩, hrem⟩ := h
            subst ht; subst hrem
            right; left; exact ⟨rfl, rfl⟩
        · split at h
          · rename_i j hj
            simp only [Option.some.injEq, Prod.mk.injEq] at h
            obtain ⟨⟨ht, -, -⟩, hrem⟩ := h
            subst ht; subst hrem
            right; right
            exact congrArg (fun l => '*' :: l) (scanToSingle_eq hj)
          · simp at h
      · simp at h
    · simp at h

theorem tryMatch_rem_length {cs rem : List Char} {run : Run}
    (h : tryMatch cs = some (run, rem)) : rem.length < cs.length := by
  obtain ⟨t, b, i⟩ := run
  rcases tryMatch_decomp h with h1 | ⟨h1, -⟩ | h1 <;> subst h1 <;> simp <;> omega

theorem goFuel_delStars : ∀ (fuel : Nat) (cs acc : List Char), cs.length < fuel →
    ∃ d, concatText (goFuel fuel acc cs) = acc.reverse ++ d ∧ delStars cs d := by
  intro fuel
  induction fuel with
  | zero => intro cs acc h; omega
  | succ fuel ih =>
    intro cs acc h
    cases cs with
    | nil =>
      exact ⟨[], by simp [goFuel, concatText_flushAcc], .nil⟩
    | cons c rest =>
      simp only [List.length_cons] at h
      cases hm : tryMatch (c :: rest) with
      | none =>
        obtain ⟨d, hd, hdel⟩ := ih rest (c :: acc) (by omega)
        refine ⟨c :: d, ?_, .keep c hdel⟩
        rw [goFuel]
        simp only [hm]
        rw [hd]
        simp
      | some p =>
        obtain ⟨⟨t, b, i⟩, rem⟩ := p
        have hlen := tryMatch_rem_length hm
        simp only [List.length_cons] at hlen
        obtain ⟨d, hd, hdel⟩ := ih rem [] (by omega)
        refine ⟨t ++ d, ?_, ?_⟩
        · rw [goFuel]
          simp only [hm]
          rw [concatText_append, concatText_cons, concatText_flushAcc, hd]
          simp
        · rcases tryMatch_decomp hm with h1 | ⟨h1, ht⟩ | h1
          · rw [h1]
            exact .star (.star (delStars_append t (.star (.star hdel))))
          · rw [h1, ht]
            exact .star (.star hdel)
          · rw [h1]
            exact .star (delStars_append t (.star hdel))

theorem tryMatch_none_of_head_ne {c : Char} {rest : List Char} (h : ¬c = '*') :
    tryMatch (c :: rest) = none := by
  simp only [tryMatch.eq_def]
  simp [h]

theorem goFuel_noStar : ∀ (fuel : Nat) (cs acc : List Char), cs.length < fuel →
    '*' ∉ cs → goFuel fuel acc cs = flushAcc (cs.reverse ++ acc) := by
  intro fuel
  induction fuel with
  | zero => intro cs acc h; omega
  | succ fuel ih =>
    intro cs acc h hstar
    cases cs with
    | nil => simp [goFuel]
    | cons c rest =>
      have hc : ¬c = '*' := fun hc => hstar (hc ▸ List.mem_cons_self c rest)
      rw [goFuel]
      simp only [tryMatch_none_of_head_ne hc]
      rw [ih rest (c :: acc) (by simp at h; omega) (fun hm => hstar (List.mem_cons_of_mem c hm))]
      simp

/-- C1 (counterexample): for the input line `"*a"` (an unterminated marker)
the concatenation of the produced run texts keeps the asterisk, so it does
not equal the input line with all `*` markers removed. -/
theorem C1_roundtrip_counterexample :
    concatText (parse_inline_markdown ("*a".data)) ≠
      ("*a".data).filter (fun c => c != '*') := by decide

/-- C1 (amended): concatenating the text fields of the runs produced from a
line equals the line with the asterisks of matched span delimiters removed —
it is obtained from the line by deleting only `*` characters, and unmatched
asterisks are kept literally; in particular, input `"a **b** c *d*"` yields
runs `[("a ",F,F), ("b",T,F), (" c ",F,F), ("d",F,T)]`. -/
theorem C1_roundtrip_amended :
    (∀ cs : List Char, delStars cs (concatText (parse_inline_markdown cs))) ∧
      parse_inline_markdown ("a **b** c *d*".data) =
        [("a ".data, false, false), ("b".data, true, false),
         (" c ".data, false, false), ("d".data, false, true)] := by
  constructor
  · intro cs
    obtain ⟨d, hd, hdel⟩ := goFuel_delStars (cs.length + 1) cs [] (by omega)
    unfold parse_inline_markdown
    by_cases hps : (goFuel (cs.length + 1) [] cs).isEmpty
    · simp only [hps, if_pos]
      have : concatText [(cs, false, false)] = cs := by simp [concatText]
      rw [this]
      exact delStars_refl cs
    · simp only [hps]
      rw [if_neg (by simp)]
      rw [hd] at *
      simpa using hdel
  · decide

/-- C7: a paragraph line containing no asterisk is tokenized into exactly one
run, unstyled, whose text is the whole line. -/
theorem C7_no_asterisk_single_run (cs : List Char) (h : '*' ∉ cs) :
    parse_inline_markdown cs = [(cs, false, false)] := by
  unfold parse_inline_markdown
  rw [goFuel_noStar (cs.length + 1) cs [] (by omega) h]
  cases cs with
  | nil => simp [flushAcc]
  | cons c rest =>
    have hne : ¬((c :: rest).reverse ++ []).isEmpty := by simp
    rw [flushAcc, if_neg hne]
    simp [flushAcc]

/-- Witness for C7 at the concrete line `"hello"`. -/
theorem C7_no_asterisk_single_run_witness :
    parse_inline_markdown ("hello".data) = [("hello".data, false, false)] :=
  C7_no_asterisk_single_run ("hello".data) (by decide)

/-- Python `line.split('|')` on character lists. -/
def splitPipe : List Char → List (List Char)
  | [] => [[]]
  | c :: rest =>
    let r := splitPipe rest
    if c = '|' then [] :: r
    else (c :: r.headD []) :: r.tail

/-- `[cell.strip() for cell in line.split('|')[1:-1]]`: the cells of one
table row (the first and last `split` fields are discarded). -/
def parseCells (l : List Char) : List (List Char) :=
  (((splitPipe l).drop 1).dropLast).map strip

/-- The collection loop of `add_table_from_markdown`: consume the maximal
run of lines containing `'|'`, keeping those whose stripped form does not
start with `"|---"`.  Returns the kept lines and the remaining input. -/
def collectTableLines : List (List Char) → List (List Char) × List (List Char)
  | [] => ([], [])
  | l :: ls =>
    if l.contains '|' then
      let p := collectTableLines ls
      (if startsWith ("|---".data) (strip l) then p.1 else l :: p.1, p.2)
    else ([], l :: ls)

/-- One Word table cell: its text and whether header styling (bold) was
applied to its runs. -/
abbrev Cell := List Char × Bool

/-- A freshly created table row of `cols` empty cells. -/
def mkEmptyRow (cols : Nat) : List Cell :=
  List.replicate cols ([], false)

/-- The inner fill loop `for j, cell_text in enumerate(row_data)`: writes the
row's cells left to right.  `row.cells[j]` raises `IndexError` as soon as
`j` reaches the table's column count, which stops the fill with the cells
written so far (second component `false`). -/
def fillOneRow (row : List Cell) (isHeader : Bool) (j cols : Nat) :
    List (List Char) → List Cell × Bool
  | [] => (row, true)
  | t :: ts =>
    if j < cols then fillOneRow (row.set j (t, isHeader)) isHeader (j + 1) cols ts
    else (row, false)

/-- The outer fill loop `for i, row_data in enumerate(rows)`: fills each row
in turn; header styling is applied exactly to row 0.  On an `IndexError` the
loop stops, leaving the later rows as created (empty). -/
def fillGrid (cols : Nat) (isFirst : Bool) : List (List (List Char)) → List (List Cell) × Bool
  | [] => ([], true)
  | r :: rs =>
    let p := fillOneRow (mkEmptyRow cols) isFirst 0 cols r
    if p.2 then
      let q := fillGrid cols false rs
      (p.1 :: q.1, q.2)
    else (p.1 :: rs.map (fun _ => mkEmptyRow cols), false)

/-- One abstract document operation applied to the sink. -/
inductive DocOp where
  | heading (text : List Char) (level : Nat)
  | para (runs : List Run)
  | table (grid : List (List Cell))
  | pageBreak
  deriving DecidableEq

/-- `i + 1 < len(lines) and '|---' in lines[i + 1]`: the one-line lookahead
of the table detection. -/
def nextHasSep : List (List Char) → Bool
  | [] => false
  | next :: _ => hasSub ("|---".data) next

/-- The `while i < len(lines)` loop of `process_markdown_file`, recording the
operations applied to the document.  The second component is `false` when an
`IndexError` escaped `add_table_from_markdown`, aborting the rest of the
file (the driver catches it).  `fuel` dominates the length of the line list,
so the zero case is never reached from the wrapper below. -/
def processFuel : Nat → List (List Char) → List DocOp × Bool
  | 0, _ => ([], true)
  | _ + 1, [] => ([], true)
  | fuel + 1, l :: ls =>
    let line := rstrip l
    if line.isEmpty then processFuel fuel ls
    else if strip line = "---".data then processFuel fuel ls
    else if startsWith ("# ".data) line then
      let p := processFuel fuel ls
      (DocOp.heading (line.drop 2) 1 :: p.1, p.2)
    else if startsWith ("## ".data) line then
      let p := processFuel fuel ls
      (DocOp.heading (line.drop 3) 2 :: p.1, p.2)
    else if startsWith ("### ".data) line then
      let p := processFuel fuel ls
      (DocOp.heading (line.drop 4) 3 :: p.1, p.2)
    else if startsWith ("#### ".data) line then
      let p := processFuel fuel ls
      (DocOp.heading (line.drop 5) 4 :: p.1, p.2)
    else if line.contains '|' && nextHasSep ls then
      let kr := collectTableLines (l :: ls)
      if kr.1.isEmpty then processFuel fuel kr.2
      else
        let rows := kr.1.map parseCells
        let cols := (rows.headD []).length
        let fg := fillGrid cols true rows
        if fg.2 then
          let p := processFuel fuel kr.2
          (DocOp.table fg.1 :: DocOp.para [] :: p.1, p.2)
        else ([DocOp.table fg.1], false)
    else
      if (strip line).isEmpty then processFuel fuel ls
      else
        let p := processFuel fuel ls
        (DocOp.para (parse_inline_markdown line) :: p.1, p.2)

/-- `process_markdown_file(doc, filepath)` on the file's lines: the sequence
of operations applied to the document, and whether the file was processed to
the end without an exception. -/
def process_markdown_file (ls : List (List Char)) : List DocOp × Bool :=
  processFuel (ls.length + 1) ls

/-- One iteration of the `for md_file in markdown_files` loop of `main`:
a missing file contributes nothing; otherwise the file's operations are
applied, followed by one page break exactly when no exception escaped. -/
def fileOps : Option (List (List Char)) → List DocOp
  | none => []
  | some ls =>
    (process_markdown_file ls).1 ++
      (if (process_markdown_file ls).2 then [DocOp.pageBreak] else [])

/-- `main` on a list of input files (`none` = missing file): the initial
page break, then each file's operations in order. -/
def mainOps (files : List (Option (List (List Char)))) : List DocOp :=
  DocOp.pageBreak :: (files.map fileOps).flatten

/-- The document sink: operations are appended, in order, to the sink's
current contents. -/
def applySink (sink : List DocOp) (ops : List DocOp) : List DocOp :=
  sink ++ ops

/-- C2 (counterexample): the block `["|---|", "|---|"]` is recognized by the
classifier (the first line contains `'|'` and the next line contains
`"|---"`), yet the table parser keeps no line, so the grid has zero rows and
no table operation is emitted. -/
theorem C2_grid_counterexample :
    (("|---|".data).contains '|' = true ∧ nextHasSep ["|---|".data] = true) ∧
      (collectTableLines ["|---|".data, "|---|".data]).1 = [] ∧
      process_markdown_file ["|---|".data, "|---|".data] = ([], true) := by decide

/-- C2 (amended): if the line that triggers table detection is not itself a
separator row (its stripped form does not start with `"|---"`), then it is
kept as the first table line, so the grid has at least one row. -/
theorem C2_grid_amended (l : List Char) (ls : List (List Char))
    (h1 : l.contains '|' = true)
    (h2 : startsWith ("|---".data) (strip l) = false) :
    (collectTableLines (l :: ls)).1.head? = some l ∧
      ((collectTableLines (l :: ls)).1.map parseCells).length ≥ 1 := by
  rw [collectTableLines]
  rw [if_pos h1]
  simp [h2]

/-- Witness for C2 (amended) at the concrete block `["| A |"]`. -/
theorem C2_grid_amended_witness :
    (collectTableLines ["| A |".data]).1.head? = some ("| A |".data) ∧
      ((collectTableLines ["| A |".data]).1.map parseCells).length ≥ 1 :=
  C2_grid_amended ("| A |".data) [] (by decide) (by decide)

/-- C3: the converter at the failing input: a data row with more cells than
the header.  Filling stops at the third cell (`row.cells[2]` raises
`IndexError` on the two-column table), the error flag is set, and the
remaining line `"Tail."` of the file produces no operation — the row is not
recovered by padding or truncation. -/
theorem C3_long_row_failing :
    process_markdown_file
        ["| A | B |".data, "|---|---|".data, "| 1 | 2 | 3 |".data, "Tail.".data] =
      ([DocOp.table [[("A".data, true), ("B".data, true)],
                     [("1".data, false), ("2".data, false)]]], false) ∧
      mainOps [some ["| A | B |".data, "|---|---|".data, "| 1 | 2 | 3 |".data, "Tail.".data],
               some ["Next file.".data]] =
        [DocOp.pageBreak,
         DocOp.table [[("A".data, true), ("B".data, true)],
                      [("1".data, false), ("2".data, false)]],
         DocOp.para [("Next file.".data, false, false)],
         DocOp.pageBreak] := by decide

/-- C6: the three-line table block with header `| A | B |`, separator
`|---|---|` and data row `| 1 | 2 |` yields exactly one table operation with
grid `[["A","B"],["1","2"]]`, header styling on row 0 only, followed by the
spacer paragraph. -/
theorem C6_concrete_table :
    process_markdown_file ["| A | B |".data, "|---|---|".data, "| 1 | 2 |".data] =
      ([DocOp.table [[("A".data, true), ("B".data, true)],
                     [("1".data, false), ("2".data, false)]],
        DocOp.para []], true) := by decide

/-- C8: the converter is a pure function of its input lines, so running it
against two fresh sinks yields the same final sink contents. -/
theorem C8_deterministic (ls : List (List Char)) (s1 s2 : List DocOp)
    (h1 : s1 = []) (h2 : s2 = []) :
    applySink s1 (process_markdown_file ls).1 =
      applySink s2 (process_markdown_file ls).1 := by
  rw [h1, h2]

/-- Witness for C8 at a concrete one-line input. -/
theorem C8_deterministic_witness :
    applySink [] (process_markdown_file ["x".data]).1 =
      applySink [] (process_markdown_file ["x".data]).1 :=
  C8_deterministic ["x".data] [] [] rfl rfl

/-- C9: the table parser consumes at most the lines it is given, and
consumes the triggering line (which contains `'|'`), so it always returns
strictly fewer remaining lines and the driver loop's index strictly
increases; processing of a finite file therefore terminates. -/
theorem C9_parser_progress :
    (∀ ls : List (List Char), ((collectTableLines ls).2).length ≤ ls.length) ∧
      ∀ (l : List Char) (ls : List (List Char)), l.contains '|' = true →
        ((collectTableLines (l :: ls)).2).length < (l :: ls).length := by
  have h1 : ∀ ls : List (List Char), ((collectTableLines ls).2).length ≤ ls.length := by
    intro ls
    induction ls with
    | nil => simp [collectTableLines]
    | cons l ls ih =>
      rw [collectTableLines]
      by_cases hc : l.contains '|' = true
      · rw [if_pos hc]
        exact le_trans ih (Nat.le_succ _)
      · rw [if_neg hc]
  refine ⟨h1, fun l ls hc => ?_⟩
  rw [collectTableLines]
  rw [if_pos hc]
  exact Nat.lt_succ_of_le (h1 ls)

/-- Witness for C9 at the concrete line `"|"`. -/
theorem C9_parser_progress_witness :
    ((collectTableLines ["|".data]).2).length < (["|".data]).length :=
  C9_parser_progress.2 ("|".data) [] (by decide)

theorem pb_not_mem_cons {x : DocOp} {xs : List DocOp}
    (h1 : DocOp.pageBreak ≠ x) (h2 : DocOp.pageBreak ∉ xs) :
    DocOp.pageBreak ∉ x :: xs := by
  intro hm
  rcases List.mem_cons.mp hm with h | h
  · exact h1 h
  · exact h2 h

/-- No markdown construct maps to a page break: the file-processing loop
never applies one. -/
theorem processFuel_no_pageBreak : ∀ (fuel : Nat) (ls : List (List Char)),
    DocOp.pageBreak ∉ (processFuel fuel ls).1 := by
  intro fuel
  induction fuel with
  | zero => intro ls; simp [processFuel]
  | succ fuel ih =>
    intro ls
    cases ls with
    | nil => simp [processFuel]
    | cons l ls =>
      rw [processFuel]
      dsimp only
      repeat' split
      all_goals first
        | exact ih _
        | exact pb_not_mem_cons (by simp) (ih _)
        | exact pb_not_mem_cons (by simp) (pb_not_mem_cons (by simp) (ih _))
        | simp

/-- C4: when every input file is present and processes without an exception,
`main` applies each file's operations followed by exactly one page break for
that file (after the single initial page break), and no file's own content
contributes a page break. -/
theorem C4_pagebreak_per_file (files : List (List (List Char)))
    (h : ∀ f ∈ files, (process_markdown_file f).2 = true) :
    mainOps (files.map some) =
      DocOp.pageBreak ::
        (files.map (fun f => (process_markdown_file f).1 ++ [DocOp.pageBreak])).flatten ∧
      ∀ f ∈ files, DocOp.pageBreak ∉ (process_markdown_file f).1 := by
  constructor
  · unfold mainOps
    congr 1
    induction files with
    | nil => simp
    | cons f fs ih =>
      simp only [List.map_cons, List.flatten_cons]
      congr 1
      · show (process_markdown_file f).1 ++
            (if (process_markdown_file f).2 then [DocOp.pageBreak] else []) = _
        rw [h f (by simp)]
        simp
      · exact ih (fun g hg => h g (List.mem_cons_of_mem f hg))
  · exact fun f _ => processFuel_no_pageBreak _ _

/-- Witness for C4 at a concrete two-file run. -/
theorem C4_pagebreak_per_file_witness :
    mainOps ([["# T".data], ["x".data]].map some) =
      DocOp.pageBreak ::
        (([["# T".data], ["x".data]]).map
          (fun f => (process_markdown_file f).1 ++ [DocOp.pageBreak])).flatten ∧
      ∀ f ∈ [["# T".data], ["x".data]], DocOp.pageBreak ∉ (process_markdown_file f).1 :=
  C4_pagebreak_per_file [["# T".data], ["x".data]] (by decide)

/-- C5: a line made of exactly `N` `'#'` characters (1 ≤ N ≤ 4) followed by
a space (already free of trailing whitespace, as the classifier sees it)
emits exactly one operation: a heading at level `N` whose text is the
remainder after the `N+1`-character prefix; processing then continues with
the remaining lines. -/
theorem C5_heading_levels (n : Nat) (t : List Char) (rest : List (List Char))
    (h1 : 1 ≤ n) (h2 : n ≤ 4)
    (h3 : rstrip (List.replicate n '#' ++ ' ' :: t) = List.replicate n '#' ++ ' ' :: t) :
    process_markdown_file ((List.replicate n '#' ++ ' ' :: t) :: rest) =
      (DocOp.heading t n :: (process_markdown_file rest).1,
        (process_markdown_file rest).2) := by
  interval_cases n
  all_goals
    simp only [List.replicate, List.cons_append, List.nil_append] at h3 ⊢
  all_goals
    unfold process_markdown_file
    simp only [List.length_cons]
    rw [processFuel]
    simp [h3, strip, lstrip, startsWith, nextHasSep, List.dropWhile, Char.isWhitespace]

/-- Witness for C5 at the concrete line `"## Title"`. -/
theorem C5_heading_levels_witness :
    process_markdown_file ((List.replicate 2 '#' ++ ' ' :: "Title".data) :: []) =
      (DocOp.heading ("Title".data) 2 :: (process_markdown_file []).1,
        (process_markdown_file []).2) :=
  C5_heading_levels 2 ("Title".data) [] (by decide) (by decide) (by decide)

/-- Comparison definition, following the spec's padding policy wording: a
row rendered into a `cols`-wide table keeps its own cells (with header
styling when it is the header row) and every cell position beyond its
length stays the empty, unstyled cell. -/
def padRow (cols : Nat) (isHeader : Bool) (r : List (List Char)) : List Cell :=
  r.map (fun t => (t, isHeader)) ++ List.replicate (cols - r.length) ([], false)

theorem set_append_cons (pre : List Cell) (v x : Cell) (tail : List Cell) :
    (pre ++ x :: tail).set pre.length v = pre ++ v :: tail := by
  induction pre with
  | nil => simp
  | cons a pre ih => simp [List.set, ih]

theorem fillOneRow_spec : ∀ (r : List (List Char)) (h : Bool) (pre : List Cell) (m : Nat),
    r.length ≤ m →
    fillOneRow (pre ++ List.replicate m ([], false)) h pre.length (pre.length + m) r =
      (pre ++ r.map (fun t => (t, h)) ++ List.replicate (m - r.length) ([], false), true) := by
  intro r
  induction r with
  | nil =>
    intro h pre m _
    simp [fillOneRow]
  | cons t ts ih =>
    intro h pre m hm
    simp only [List.length_cons] at hm
    obtain ⟨m', rfl⟩ : ∃ m', m = m' + 1 := ⟨m - 1, by omega⟩
    rw [fillOneRow, if_pos (by omega)]
    rw [List.replicate_succ, set_append_cons]
    have hsplit : pre ++ (t, h) :: List.replicate m' (([], false) : Cell) =
        (pre ++ [(t, h)]) ++ List.replicate m' ([], false) := by simp
    have hj : pre.length + 1 = (pre ++ [(t, h)]).length := by simp
    have hcols : pre.length + (m' + 1) = (pre ++ [(t, h)]).length + m' := by simp; omega
    rw [hsplit, hj, hcols, ih h (pre ++ [(t, h)]) m' (by omega)]
    simp [Nat.succ_sub_succ]

theorem fillGrid_spec (cols : Nat) : ∀ (rows : List (List (List Char))) (h : Bool),
    (∀ r ∈ rows, r.length ≤ cols) →
    fillGrid cols h rows =
      ((match rows with
        | [] => []
        | r :: rs => padRow cols h r :: rs.map (padRow cols false)), true) := by
  intro rows
  induction rows with
  | nil => intro h _; simp [fillGrid]
  | cons r rs ih =>
    intro h hall
    rw [fillGrid]
    have h0 := fillOneRow_spec r h [] cols (hall r (by simp))
    simp only [List.nil_append, List.length_nil, Nat.zero_add] at h0
    rw [show mkEmptyRow cols = List.replicate cols (([], false) : Cell) from rfl, h0]
    simp only [if_true]
    rw [ih false (fun g hg => hall g (List.mem_cons_of_mem r hg))]
    cases rs <;> simp [padRow]

theorem padRow_length {cols : Nat} {isHeader : Bool} {r : List (List Char)}
    (h : r.length ≤ cols) : (padRow cols isHeader r).length = cols := by
  simp [padRow]
  omega

/-- C10: for a table block whose data rows are no wider than the header row,
the fill succeeds, every rendered row has exactly the header's column count,
and every cell position beyond a short row's own cells is the empty string
(padding with empty cells). -/
theorem C10_short_rows_padded (rows : List (List (List Char)))
    (r0 : List (List Char)) (rs : List (List (List Char)))
    (hrows : rows = r0 :: rs)
    (hle : ∀ r ∈ rows, r.length ≤ r0.length) :
    fillGrid r0.length true rows =
      (padRow r0.length true r0 :: rs.map (padRow r0.length false), true) ∧
      ∀ row ∈ (fillGrid r0.length true rows).1, row.length = r0.length := by
  subst hrows
  have hg := fillGrid_spec r0.length (r0 :: rs) true hle
  refine ⟨hg, ?_⟩
  rw [hg]
  intro row hrow
  rcases List.mem_cons.mp hrow with h | h
  · rw [h]
    exact padRow_length (le_refl _)
  · obtain ⟨g, hg', rfl⟩ := List.mem_map.mp h
    exact padRow_length (hle g (List.mem_cons_of_mem r0 hg'))

/-- Witness for C10 at a concrete two-row table with a short second row. -/
theorem C10_short_rows_padded_witness :
    fillGrid 2 true [["A".data, "B".data], ["1".data]] =
      (padRow 2 true ["A".data, "B".data] :: [["1".data]].map (padRow 2 false), true) ∧
      ∀ row ∈ (fillGrid 2 true [["A".data, "B".data], ["1".data]]).1, row.length = 2 :=
  C10_short_rows_padded [["A".data, "B".data], ["1".data]]
    ["A".data, "B".data] [["1".data]] rfl (by decide)

/-- The spec's end-to-end scenario: `"# Title\n\nSome **bold** text.\n"`
produces a level-1 heading followed by one styled paragraph. -/
theorem end_to_end_scenario :
    process_markdown_file ["# Title".data, "".data, "Some **bold** text.".data] =
      ([DocOp.heading "Title".data 1,
        DocOp.para [("Some ".data, false, false), ("bold".data, true, false),
                    (" text.".data, false, false)]], true) := by decide

end MergeToDocx
